import Mathlib

/-!
Shallow embedding of `netshare/utils/field.py` (NetShare field codecs).

Python floats are modelled as rationals (`ℚ`), numpy 1-D arrays as
`List ℚ` (the trailing dimension of a 1-D array is its length), and a
Python `raise` as the `Except.error` branch of an `Except` result.
Division on `ℚ` is total (division by zero yields `0`), so theorems about
the degenerate `max_x = min_x` configuration speak only about control flow
(which branch is taken, whether an error is raised), never about the value
of the ill-defined quotient.
-/

namespace NetShare

/-- Modelled from the spec: the normalization-mode enumeration `Normalization`
lives in `netshare/utils/output.py`, which is not part of the sources; the
spec treats it as an externally supplied closed enumeration with members
`ZERO_ONE` and `MINUSONE_ONE`. -/
inductive Normalization where
  | ZERO_ONE
  | MINUSONE_ONE
deriving DecidableEq, Repr

/-- Modelled from the spec: the output-kind enumeration `OutputType` from
`netshare/utils/output.py` (not in the sources); a closed enumeration with
members `CONTINUOUS` and `DISCRETE`. -/
inductive OutputType where
  | CONTINUOUS
  | DISCRETE
deriving DecidableEq, Repr

/-- Modelled from the spec: the `Output` descriptor record from
`netshare/utils/output.py` (not in the sources): kind, width, and an
optional normalization mode (present only for continuous outputs; callers
in `field.py` omit it for discrete outputs). -/
structure Output where
  type_ : OutputType
  dim : Nat
  normalization : Option Normalization := none
deriving DecidableEq, Repr

/-- Errors raised by the field codecs.  `dimension` embeds the
`ValueError(f"Dimension is {got}. Expected dimension is {expected}")` raised
by `ContinuousField`; `badBitLength` embeds the failed
`assert len(bin_x) == 2 * self.num_bits` of `BitField.denormalize`;
`emptyBitParse` embeds the `ValueError` that `int("0b", 2)` raises when
`BitField.denormalize` runs with `num_bits = 0`. -/
inductive FieldError where
  | dimension (got expected : Nat)
  | badBitLength (got expected : Nat)
  | emptyBitParse
deriving DecidableEq, Repr

instance {ε α : Type} [DecidableEq ε] [DecidableEq α] :
    DecidableEq (Except ε α) := fun a b =>
  match a, b with
  | Except.ok x, Except.ok y =>
      if h : x = y then isTrue (by rw [h])
      else isFalse (fun c => h (Except.ok.inj c))
  | Except.error x, Except.error y =>
      if h : x = y then isTrue (by rw [h])
      else isFalse (fun c => h (Except.error.inj c))
  | Except.ok _, Except.error _ => isFalse (fun c => Except.noConfusion c)
  | Except.error _, Except.ok _ => isFalse (fun c => Except.noConfusion c)

/-- Embedding of `ContinuousField(norm_option, min_x, max_x, dim_x, name)`. -/
structure ContinuousField where
  name : String
  norm_option : Normalization
  min_x : ℚ
  max_x : ℚ
  dim_x : Nat

/-- Embedding of `ContinuousField.normalize`: dimension check on the trailing dimension,
then the element-wise affine map `(x - min_x) / (max_x - min_x)` (ZERO_ONE)
or `2 * (x - min_x) / (max_x - min_x) - 1` (MINUSONE_ONE).  The Python
`else: raise Exception("Not valid normalization option!")` branch is
unrepresentable here because `Normalization` is embedded as a closed
two-member enumeration. -/
def ContinuousField.normalize (f : ContinuousField) (x : List ℚ) :
    Except FieldError (List ℚ) :=
  if x.length ≠ f.dim_x then
    Except.error (FieldError.dimension x.length f.dim_x)
  else
    match f.norm_option with
    | Normalization.ZERO_ONE =>
        Except.ok (x.map fun v => (v - f.min_x) / (f.max_x - f.min_x))
    | Normalization.MINUSONE_ONE =>
        Except.ok (x.map fun v => 2 * (v - f.min_x) / (f.max_x - f.min_x) - 1)

/-- Embedding of `ContinuousField.denormalize`: same dimension check, then the
element-wise map `y * (max_x - min_x) + min_x` (ZERO_ONE) or
`(y + 1) / 2 * (max_x - min_x) + min_x` (MINUSONE_ONE). -/
def ContinuousField.denormalize (f : ContinuousField) (y : List ℚ) :
    Except FieldError (List ℚ) :=
  if y.length ≠ f.dim_x then
    Except.error (FieldError.dimension y.length f.dim_x)
  else
    match f.norm_option with
    | Normalization.ZERO_ONE =>
        Except.ok (y.map fun v => v * (f.max_x - f.min_x) + f.min_x)
    | Normalization.MINUSONE_ONE =>
        Except.ok (y.map fun v => (v + 1) / 2 * (f.max_x - f.min_x) + f.min_x)

/-- Embedding of `ContinuousField.getOutputType`. -/
def ContinuousField.getOutputType (f : ContinuousField) : Output :=
  { type_ := OutputType.CONTINUOUS
    dim := f.dim_x
    normalization := some f.norm_option }

/-- Embedding of `DiscreteField(choices, name)`; `dim_x = len(choices)`. -/
structure DiscreteField where
  name : String
  choices : List String

/-- Embedding of `self.dim_x = len(choices)`. -/
def DiscreteField.dim_x (f : DiscreteField) : Nat :=
  f.choices.length

/-- Embedding of `DiscreteField.normalize` on a single value: one-hot encoding over the
categorical dtype with categories `choices` (`pd.get_dummies` over a
`CategoricalDtype`): one column per vocabulary entry, in vocabulary order,
holding `1` exactly where the category equals the input.  A value absent
from `choices` maps to `NaN` under the dtype and `get_dummies` then emits an
all-zero row. -/
def DiscreteField.normalize (f : DiscreteField) (x : String) : List ℚ :=
  f.choices.map fun c => if c = x then 1 else 0

/-- Greatest element of a list of rationals, as computed by `np.max`
(`0` on the empty list, where numpy instead errors; all uses below guard
non-emptiness). -/
def maxElem : List ℚ → ℚ
  | [] => 0
  | [x] => x
  | x :: y :: t => max x (maxElem (y :: t))

/-- Index of the first occurrence of the greatest element, as computed by
`np.argmax` on a 1-D array (numpy documents that ties are broken by the
lowest index; `0` on the empty list, where numpy instead errors). -/
def argmaxIdx : List ℚ → Nat
  | [] => 0
  | [_] => 0
  | x :: y :: t => if x < maxElem (y :: t) then argmaxIdx (y :: t) + 1 else 0

/-- Embedding of `DiscreteField.denormalize` on a single row:
`np.asarray(self.choices)[np.argmax(norm_x, axis=-1)]`.  `none` embeds the
numpy errors on an empty row (`argmax` of an empty sequence) or an
out-of-range index into `choices`. -/
def DiscreteField.denormalize (f : DiscreteField) (norm_x : List ℚ) :
    Option String :=
  match norm_x with
  | [] => none
  | _ :: _ => f.choices.get? (argmaxIdx norm_x)

/-- Embedding of `DiscreteField.getOutputType`. -/
def DiscreteField.getOutputType (f : DiscreteField) : Output :=
  { type_ := OutputType.DISCRETE
    dim := f.choices.length }

/-- Embedding of `BitField(num_bits, name)`; `dim_x = num_bits * 2`. -/
structure BitField where
  name : String
  num_bits : Nat

/-- Embedding of `self.dim_x = num_bits * 2`. -/
def BitField.dim_x (f : BitField) : Nat :=
  f.num_bits * 2

/-- Binary digits of `n`, most-significant first, as produced by
`bin(n)[2:]` for `n ≥ 1` (empty for `n = 0`; `bin(0)[2:] = "0"` is handled
in `natBinDigits`).  The first argument is structural fuel: `n` itself
always suffices, since halving a positive number at least `1` times reaches
`0` within `n` steps. -/
def binDigitsAux : Nat → Nat → List Nat
  | _, 0 => []
  | 0, _ + 1 => []
  | fuel + 1, n + 1 => binDigitsAux fuel ((n + 1) / 2) ++ [(n + 1) % 2]

/-- Embedding of `bin(n)[2:]` as a digit list, most-significant first: `[0]` for `0`. -/
def natBinDigits (n : Nat) : List Nat :=
  if n = 0 then [0] else binDigitsAux n n

/-- Embedding of `str.zfill(k)`: left-pad with zeros to length `k`; never truncates. -/
def zfill (k : Nat) (l : List Nat) : List Nat :=
  List.replicate (k - l.length) 0 ++ l

/-- The accumulation loop of `BitField.normalize`: digit `0` appends
`[1.0, 0.0]`, digit `1` appends `[0.0, 1.0]`, and any other digit appends
nothing (the source only prints a warning there). -/
def bitsOfDigits : List Nat → List ℚ
  | [] => []
  | b :: rest =>
      (if b = 0 then [(1 : ℚ), 0]
       else if b = 1 then [(0 : ℚ), 1]
       else []) ++ bitsOfDigits rest

/-- Embedding of `BitField.normalize`: `bin(int(decimal_x))[2:].zfill(num_bits)`, then
each binary digit expanded to a 2-wide one-hot pair.  No range check is
performed on `decimal_x`: `zfill` never truncates, so an input needing more
than `num_bits` digits silently yields a longer output. -/
def BitField.normalize (f : BitField) (decimal_x : Nat) : List ℚ :=
  bitsOfDigits (zfill f.num_bits (natBinDigits decimal_x))

/-- The chunking loop of `BitField.denormalize`: each consecutive pair
`[a, b]` contributes the bit `np.argmax([a, b])`, which is `1` iff `b > a`
(ties go to index `0`). -/
def pairsToBits : List ℚ → List Nat
  | a :: b :: rest => (if a < b then 1 else 0) :: pairsToBits rest
  | _ => []

/-- Embedding of `int("0b" + bits, 2)`: value of a most-significant-first digit list. -/
def bitsVal (l : List Nat) : Nat :=
  l.foldl (fun acc b => 2 * acc + b) 0

/-- Embedding of `BitField.denormalize`: the `assert len(bin_x) == 2 * self.num_bits`
embeds as the length guard; then the pairs are decoded by arg-max and the
resulting binary string is parsed.  When `num_bits = 0` the parsed string is
the bare prefix `"0b"`, on which Python's `int(_, 2)` raises `ValueError`,
embedded as `emptyBitParse`. -/
def BitField.denormalize (f : BitField) (bin_x : List ℚ) :
    Except FieldError Nat :=
  if bin_x.length ≠ 2 * f.num_bits then
    Except.error (FieldError.badBitLength bin_x.length (2 * f.num_bits))
  else if f.num_bits = 0 then
    Except.error FieldError.emptyBitParse
  else
    Except.ok (bitsVal (pairsToBits bin_x))

/-- Embedding of `BitField.getOutputType`: the loop appending one width-2 discrete
descriptor per bit position. -/
def BitField.getOutputType (f : BitField) : List Output :=
  (List.range f.num_bits).map fun _ =>
    { type_ := OutputType.DISCRETE, dim := 2 }

/-- Boolean success test on `Except` (true exactly on the `ok` branch, i.e.
when the embedded Python call returns without raising). -/
def exceptIsOk {ε α : Type} : Except ε α → Bool
  | Except.ok _ => true
  | Except.error _ => false

/-- Mapping a pointwise identity over a list is the identity. -/
lemma map_eq_self_of (l : List ℚ) (g : ℚ → ℚ) (h : ∀ v, g v = v) :
    l.map g = l := by
  induction l with
  | nil => rfl
  | cons a t ih => simp [h a, ih]

/-- C1: ContinuousField round-trip.  For every input whose trailing
dimension equals the field's width and `min_x < max_x`, in both
normalization modes, `denormalize (normalize x)` returns `x` exactly, over
rational arithmetic. -/
theorem ContinuousField_round_trip (f : ContinuousField) (x : List ℚ)
    (hlt : f.min_x < f.max_x) (hdim : x.length = f.dim_x) :
    (f.normalize x).bind f.denormalize = Except.ok x := by
  obtain ⟨nm, opt, mn, mx, dim⟩ := f
  simp only at hlt hdim
  have hne : mx - mn ≠ 0 := sub_ne_zero.mpr (ne_of_gt hlt)
  have hlen : ¬ (x.length ≠ dim) := not_not_intro hdim
  cases opt with
  | ZERO_ONE =>
      simp only [ContinuousField.normalize, ContinuousField.denormalize,
        if_neg hlen, Except.bind, List.length_map, List.map_map]
      rw [map_eq_self_of]
      intro v
      simp only [Function.comp]
      field_simp
  | MINUSONE_ONE =>
      simp only [ContinuousField.normalize, ContinuousField.denormalize,
        if_neg hlen, Except.bind, List.length_map, List.map_map]
      rw [map_eq_self_of]
      intro v
      simp only [Function.comp]
      field_simp
      ring

/-- Witness for C1 at `min_x = 0`, `max_x = 10`, width 1, input `[3]`. -/
theorem ContinuousField_round_trip_witness :
    (0 : ℚ) < 10 ∧ ([(3 : ℚ)]).length = 1 ∧
    (ContinuousField.normalize ⟨"f", Normalization.ZERO_ONE, 0, 10, 1⟩ [3]).bind
      (ContinuousField.denormalize ⟨"f", Normalization.ZERO_ONE, 0, 10, 1⟩)
      = Except.ok [3] :=
  ⟨by norm_num, rfl,
    ContinuousField_round_trip ⟨"f", Normalization.ZERO_ONE, 0, 10, 1⟩ [3]
      (by norm_num) rfl⟩

/-- C6: ContinuousField dimension validation.  Both `normalize` and
`denormalize` fail with the dimension `ValueError` exactly when the input's
trailing dimension differs from `dim_x`, and return an `ok` result (the
arithmetic branch) when it matches. -/
theorem ContinuousField_dim_check (f : ContinuousField) (x : List ℚ) :
    (x.length ≠ f.dim_x →
      f.normalize x = Except.error (FieldError.dimension x.length f.dim_x)
      ∧ f.denormalize x = Except.error (FieldError.dimension x.length f.dim_x))
    ∧ (x.length = f.dim_x →
      (∃ y, f.normalize x = Except.ok y) ∧ (∃ y, f.denormalize x = Except.ok y)) := by
  constructor
  · intro h
    exact ⟨by simp only [ContinuousField.normalize, if_pos h],
           by simp only [ContinuousField.denormalize, if_pos h]⟩
  · intro h
    have hn : ¬ (x.length ≠ f.dim_x) := not_not_intro h
    cases hopt : f.norm_option <;>
      refine ⟨?_, ?_⟩ <;>
      · simp only [ContinuousField.normalize, ContinuousField.denormalize,
          if_neg hn, hopt]
        exact ⟨_, rfl⟩

/-- Witness for C6: a width-2 field rejects the length-1 input `[1.0]`. -/
theorem ContinuousField_dim_check_witness :
    ContinuousField.normalize ⟨"f", Normalization.ZERO_ONE, 0, 10, 2⟩ [1]
      = Except.error (FieldError.dimension 1 2) :=
  ((ContinuousField_dim_check ⟨"f", Normalization.ZERO_ONE, 0, 10, 2⟩ [1]).1
    (by decide)).1

/-- C4 counterexample: with `max_x = min_x = 5`, both `normalize` and
`denormalize` on the in-dimension input `[5]` return without raising any
error — no `ArithmeticError` (or any explicit degenerate-configuration
check) exists in the code. -/
theorem ContinuousField_degenerate_cex :
    exceptIsOk (ContinuousField.normalize
      ⟨"f", Normalization.ZERO_ONE, 5, 5, 1⟩ [5]) = true
    ∧ exceptIsOk (ContinuousField.denormalize
      ⟨"f", Normalization.ZERO_ONE, 5, 5, 1⟩ [5]) = true :=
  ⟨rfl, rfl⟩

/-- C4 amended: a ContinuousField with `max_x = min_x` performs no
degenerate-range check: `normalize` and `denormalize` on any input of
matching dimension return normally (in floating point the division by zero
propagates a NaN/Inf result to the caller) instead of raising an explicit
`ArithmeticError`. -/
theorem ContinuousField_degenerate_no_raise (f : ContinuousField)
    (x : List ℚ) (_hdeg : f.max_x = f.min_x) (hdim : x.length = f.dim_x) :
    exceptIsOk (f.normalize x) = true ∧ exceptIsOk (f.denormalize x) = true := by
  have hn : ¬ (x.length ≠ f.dim_x) := not_not_intro hdim
  cases hopt : f.norm_option
  · exact ⟨by simp only [ContinuousField.normalize, if_neg hn, hopt, exceptIsOk],
           by simp only [ContinuousField.denormalize, if_neg hn, hopt, exceptIsOk]⟩
  · exact ⟨by simp only [ContinuousField.normalize, if_neg hn, hopt, exceptIsOk],
           by simp only [ContinuousField.denormalize, if_neg hn, hopt, exceptIsOk]⟩

/-- Witness for the C4 amendment at `min_x = max_x = 5`, input `[5]`. -/
theorem ContinuousField_degenerate_no_raise_witness :
    (5 : ℚ) = 5 ∧
    exceptIsOk (ContinuousField.normalize
      ⟨"f", Normalization.MINUSONE_ONE, 5, 5, 1⟩ [5]) = true
    ∧ exceptIsOk (ContinuousField.denormalize
      ⟨"f", Normalization.MINUSONE_ONE, 5, 5, 1⟩ [5]) = true :=
  ⟨rfl, ContinuousField_degenerate_no_raise
    ⟨"f", Normalization.MINUSONE_ONE, 5, 5, 1⟩ [5] rfl rfl⟩

/-- C7: boundary scaling and linear extrapolation.  With `min_x < max_x`
and width 1, ZERO_ONE mode sends `min_x ↦ 0` and `max_x ↦ 1`, MINUSONE_ONE
mode sends `min_x ↦ -1` and `max_x ↦ 1`; every input is sent through the
same affine map, and out-of-range inputs land strictly outside the target
interval (linear extrapolation, no clamping). -/
theorem ContinuousField_boundary_scaling (f : ContinuousField)
    (hlt : f.min_x < f.max_x) (hdim : f.dim_x = 1) :
    (f.norm_option = Normalization.ZERO_ONE →
      f.normalize [f.min_x] = Except.ok [0]
      ∧ f.normalize [f.max_x] = Except.ok [1]
      ∧ ∀ v : ℚ,
          f.normalize [v] = Except.ok [(v - f.min_x) / (f.max_x - f.min_x)]
          ∧ (f.max_x < v → 1 < (v - f.min_x) / (f.max_x - f.min_x))
          ∧ (v < f.min_x → (v - f.min_x) / (f.max_x - f.min_x) < 0))
    ∧ (f.norm_option = Normalization.MINUSONE_ONE →
      f.normalize [f.min_x] = Except.ok [-1]
      ∧ f.normalize [f.max_x] = Except.ok [1]
      ∧ ∀ v : ℚ,
          f.normalize [v] = Except.ok [2 * (v - f.min_x) / (f.max_x - f.min_x) - 1]
          ∧ (f.max_x < v → 1 < 2 * (v - f.min_x) / (f.max_x - f.min_x) - 1)
          ∧ (v < f.min_x → 2 * (v - f.min_x) / (f.max_x - f.min_x) - 1 < -1)) := by
  have hpos : 0 < f.max_x - f.min_x := sub_pos.mpr hlt
  have hne : f.max_x - f.min_x ≠ 0 := ne_of_gt hpos
  have hlen : ∀ v : ℚ, ¬ (([v]).length ≠ f.dim_x) := by
    intro v
    simp [hdim]
  constructor
  · intro hopt
    have hnorm : ∀ v : ℚ,
        f.normalize [v] = Except.ok [(v - f.min_x) / (f.max_x - f.min_x)] := by
      intro v
      simp only [ContinuousField.normalize, if_neg (hlen v), hopt, List.map]
    refine ⟨?_, ?_, ?_⟩
    · rw [hnorm f.min_x, sub_self, zero_div]
    · rw [hnorm f.max_x, div_self hne]
    · intro v
      refine ⟨hnorm v, ?_, ?_⟩
      · intro hv
        exact (one_lt_div hpos).mpr (by linarith)
      · intro hv
        exact div_neg_of_neg_of_pos (by linarith) hpos
  · intro hopt
    have hnorm : ∀ v : ℚ,
        f.normalize [v]
          = Except.ok [2 * (v - f.min_x) / (f.max_x - f.min_x) - 1] := by
      intro v
      simp only [ContinuousField.normalize, if_neg (hlen v), hopt, List.map]
    refine ⟨?_, ?_, ?_⟩
    · rw [hnorm f.min_x]
      norm_num
    · rw [hnorm f.max_x, mul_div_assoc, div_self hne]
      norm_num
    · intro v
      refine ⟨hnorm v, ?_, ?_⟩
      · intro hv
        have h1 : 1 < (v - f.min_x) / (f.max_x - f.min_x) :=
          (one_lt_div hpos).mpr (by linarith)
        rw [mul_div_assoc]
        linarith
      · intro hv
        have h1 : (v - f.min_x) / (f.max_x - f.min_x) < 0 :=
          div_neg_of_neg_of_pos (by linarith) hpos
        rw [mul_div_assoc]
        linarith

/-- Witness for C7 at `min_x = 0`, `max_x = 10`, ZERO_ONE. -/
theorem ContinuousField_boundary_scaling_witness :
    ContinuousField.normalize ⟨"f", Normalization.ZERO_ONE, 0, 10, 1⟩ [0]
      = Except.ok [0]
    ∧ ContinuousField.normalize ⟨"f", Normalization.ZERO_ONE, 0, 10, 1⟩ [10]
      = Except.ok [1] := by
  have h := (ContinuousField_boundary_scaling
    ⟨"f", Normalization.ZERO_ONE, 0, 10, 1⟩ (by norm_num) rfl).1 rfl
  exact ⟨h.1, h.2.1⟩

lemma binDigitsAux_zero (fuel : Nat) : binDigitsAux fuel 0 = [] := by
  cases fuel <;> rfl

lemma binDigitsAux_succ (fuel n : Nat) :
    binDigitsAux (fuel + 1) (n + 1)
      = binDigitsAux fuel ((n + 1) / 2) ++ [(n + 1) % 2] := rfl

lemma binDigitsAux_fuel_irrel (n : Nat) : ∀ fuel fuel' : Nat,
    n ≤ fuel → n ≤ fuel' → binDigitsAux fuel n = binDigitsAux fuel' n := by
  induction n using Nat.strong_induction_on with
  | _ n ih =>
    intro fuel fuel' h h'
    cases n with
    | zero => rw [binDigitsAux_zero, binDigitsAux_zero]
    | succ m =>
      cases fuel with
      | zero => omega
      | succ fu =>
        cases fuel' with
        | zero => omega
        | succ fu' =>
          rw [binDigitsAux_succ, binDigitsAux_succ,
            ih ((m + 1) / 2) (by omega) fu fu' (by omega) (by omega)]

lemma bitsVal_nil : bitsVal [] = 0 := rfl

lemma bitsVal_append_digit (l : List Nat) (b : Nat) :
    bitsVal (l ++ [b]) = 2 * bitsVal l + b := by
  simp [bitsVal, List.foldl_append]

lemma binDigitsAux_val (n : Nat) : ∀ fuel : Nat, n ≤ fuel →
    bitsVal (binDigitsAux fuel n) = n := by
  induction n using Nat.strong_induction_on with
  | _ n ih =>
    intro fuel h
    cases n with
    | zero => rw [binDigitsAux_zero, bitsVal_nil]
    | succ m =>
      cases fuel with
      | zero => omega
      | succ fu =>
        rw [binDigitsAux_succ, bitsVal_append_digit,
          ih ((m + 1) / 2) (by omega) fu (by omega)]
        omega

lemma binDigitsAux_len_le (n : Nat) : ∀ fuel k : Nat, n ≤ fuel → n < 2 ^ k →
    (binDigitsAux fuel n).length ≤ k := by
  induction n using Nat.strong_induction_on with
  | _ n ih =>
    intro fuel k h hk
    cases n with
    | zero => rw [binDigitsAux_zero]; exact Nat.zero_le k
    | succ m =>
      cases fuel with
      | zero => omega
      | succ fu =>
        cases k with
        | zero => simp at hk
        | succ k' =>
          rw [binDigitsAux_succ, List.length_append]
          have hdiv : (m + 1) / 2 < 2 ^ k' := by
            rw [Nat.div_lt_iff_lt_mul (by norm_num)]
            calc m + 1 < 2 ^ (k' + 1) := hk
              _ = 2 ^ k' * 2 := by rw [pow_succ]
          have := ih ((m + 1) / 2) (by omega) fu k' (by omega) hdiv
          simp only [List.length_cons, List.length_nil]
          omega

lemma binDigitsAux_len_ge (n : Nat) : ∀ fuel k : Nat, n ≤ fuel → 2 ^ k ≤ n →
    k + 1 ≤ (binDigitsAux fuel n).length := by
  induction n using Nat.strong_induction_on with
  | _ n ih =>
    intro fuel k h hk
    cases n with
    | zero =>
      have hpow : 0 < 2 ^ k := Nat.pos_pow_of_pos k (by norm_num)
      omega
    | succ m =>
      cases fuel with
      | zero => omega
      | succ fu =>
        rw [binDigitsAux_succ, List.length_append]
        cases k with
        | zero => simp
        | succ k' =>
          have hdiv : 2 ^ k' ≤ (m + 1) / 2 := by
            rw [Nat.le_div_iff_mul_le (by norm_num)]
            calc 2 ^ k' * 2 = 2 ^ (k' + 1) := by rw [pow_succ]
              _ ≤ m + 1 := hk
          have := ih ((m + 1) / 2) (by omega) fu k' (by omega) hdiv
          simp only [List.length_cons, List.length_nil]
          omega

lemma binDigitsAux_digits_lt (n : Nat) : ∀ fuel : Nat,
    ∀ b ∈ binDigitsAux fuel n, b < 2 := by
  induction n using Nat.strong_induction_on with
  | _ n ih =>
    intro fuel b hb
    cases n with
    | zero => rw [binDigitsAux_zero] at hb; simp at hb
    | succ m =>
      cases fuel with
      | zero => simp [binDigitsAux] at hb
      | succ fu =>
        rw [binDigitsAux_succ] at hb
        rcases List.mem_append.mp hb with h | h
        · exact ih ((m + 1) / 2) (by omega) fu b h
        · rw [List.mem_singleton.mp h]
          exact Nat.mod_lt _ (by norm_num)

lemma natBinDigits_val (n : Nat) : bitsVal (natBinDigits n) = n := by
  by_cases h : n = 0
  · subst h; rfl
  · rw [natBinDigits, if_neg h]
    exact binDigitsAux_val n n le_rfl

lemma natBinDigits_len_le (n k : Nat) (h1 : 1 ≤ k) (h2 : n < 2 ^ k) :
    (natBinDigits n).length ≤ k := by
  by_cases h : n = 0
  · subst h; simpa [natBinDigits] using h1
  · rw [natBinDigits, if_neg h]
    exact binDigitsAux_len_le n n k le_rfl h2

lemma natBinDigits_len_ge (n k : Nat) (h : 2 ^ k ≤ n) :
    k + 1 ≤ (natBinDigits n).length := by
  have hn : n ≠ 0 := by
    have : 0 < 2 ^ k := Nat.pos_pow_of_pos k (by norm_num)
    omega
  rw [natBinDigits, if_neg hn]
  exact binDigitsAux_len_ge n n k le_rfl h

lemma natBinDigits_digits_lt (n : Nat) : ∀ b ∈ natBinDigits n, b < 2 := by
  by_cases h : n = 0
  · subst h; intro b hb; simp [natBinDigits] at hb; omega
  · rw [natBinDigits, if_neg h]
    exact binDigitsAux_digits_lt n n

lemma zfill_length (k : Nat) (l : List Nat) (h : l.length ≤ k) :
    (zfill k l).length = k := by
  simp only [zfill, List.length_append, List.length_replicate]
  omega

lemma bitsVal_replicate_zero (m : Nat) :
    List.foldl (fun acc b => 2 * acc + b) 0 (List.replicate m 0) = 0 := by
  induction m with
  | zero => rfl
  | succ m' ih => simpa [List.replicate] using ih

lemma zfill_val (k : Nat) (l : List Nat) : bitsVal (zfill k l) = bitsVal l := by
  simp only [zfill, bitsVal, List.foldl_append, bitsVal_replicate_zero]

lemma zfill_digits_lt (k : Nat) (l : List Nat) (h : ∀ b ∈ l, b < 2) :
    ∀ b ∈ zfill k l, b < 2 := by
  intro b hb
  rcases List.mem_append.mp hb with h' | h'
  · rw [List.eq_of_mem_replicate h']
    norm_num
  · exact h b h'

lemma bitsOfDigits_length (l : List Nat) (h : ∀ b ∈ l, b < 2) :
    (bitsOfDigits l).length = 2 * l.length := by
  induction l with
  | nil => rfl
  | cons b t ih =>
    have hb : b < 2 := h b (List.mem_cons_self b t)
    have ht : ∀ d ∈ t, d < 2 := fun d hd => h d (List.mem_cons_of_mem b hd)
    have hb2 : b = 0 ∨ b = 1 := by omega
    rcases hb2 with hb0 | hb1
    · subst hb0
      simp [bitsOfDigits, ih ht]
      omega
    · subst hb1
      simp [bitsOfDigits, ih ht]
      omega

lemma pairsToBits_bitsOfDigits (l : List Nat) (h : ∀ b ∈ l, b < 2) :
    pairsToBits (bitsOfDigits l) = l := by
  induction l with
  | nil => rfl
  | cons b t ih =>
    have hb : b < 2 := h b (List.mem_cons_self b t)
    have ht : ∀ d ∈ t, d < 2 := fun d hd => h d (List.mem_cons_of_mem b hd)
    have hb2 : b = 0 ∨ b = 1 := by omega
    rcases hb2 with hb0 | hb1
    · subst hb0
      norm_num [bitsOfDigits, pairsToBits, ih ht]
    · subst hb1
      norm_num [bitsOfDigits, pairsToBits, ih ht]

lemma bitsOfDigits_drop (l : List Nat) (h : ∀ b ∈ l, b < 2) :
    ∀ i : Nat, (bitsOfDigits l).drop (2 * i) = bitsOfDigits (l.drop i) := by
  induction l with
  | nil => intro i; simp [bitsOfDigits]
  | cons b t ih =>
    intro i
    have hb : b < 2 := h b (List.mem_cons_self b t)
    have ht : ∀ d ∈ t, d < 2 := fun d hd => h d (List.mem_cons_of_mem b hd)
    cases i with
    | zero => simp
    | succ j =>
      have harith : 2 * (j + 1) = 2 * j + 1 + 1 := by ring
      have hb2 : b = 0 ∨ b = 1 := by omega
      rcases hb2 with hb0 | hb1
      · subst hb0
        show (bitsOfDigits (0 :: t)).drop (2 * (j + 1)) = bitsOfDigits (t.drop j)
        rw [harith]
        simpa [bitsOfDigits] using ih ht j
      · subst hb1
        show (bitsOfDigits (1 :: t)).drop (2 * (j + 1)) = bitsOfDigits (t.drop j)
        rw [harith]
        simpa [bitsOfDigits] using ih ht j

/-- C2 counterexample: with `num_bits = 0` the input `0` is inside
`[0, 2 ^ num_bits)`, yet the round trip fails: `normalize 0` still emits one
pair (because `"0".zfill(0)` keeps one digit), so `denormalize` rejects its
length. -/
theorem BitField_round_trip_cex :
    (0 : Nat) < 2 ^ (0 : Nat)
    ∧ BitField.denormalize ⟨"f", 0⟩ (BitField.normalize ⟨"f", 0⟩ 0)
        ≠ Except.ok 0 := by
  constructor
  · decide
  · decide

/-- C2 amended: for every BitField with `num_bits ≥ 1` and every integer
`d` with `0 ≤ d < 2 ^ num_bits`, `denormalize (normalize d) = d`. -/
theorem BitField_round_trip (f : BitField) (d : Nat)
    (hpos : 1 ≤ f.num_bits) (hd : d < 2 ^ f.num_bits) :
    f.denormalize (f.normalize d) = Except.ok d := by
  have hdig : ∀ b ∈ natBinDigits d, b < 2 := natBinDigits_digits_lt d
  have hlen : (natBinDigits d).length ≤ f.num_bits :=
    natBinDigits_len_le d f.num_bits hpos hd
  have hzd : ∀ b ∈ zfill f.num_bits (natBinDigits d), b < 2 :=
    zfill_digits_lt f.num_bits (natBinDigits d) hdig
  have hblen : (bitsOfDigits (zfill f.num_bits (natBinDigits d))).length
      = 2 * f.num_bits := by
    rw [bitsOfDigits_length _ hzd, zfill_length f.num_bits (natBinDigits d) hlen]
  show BitField.denormalize f (bitsOfDigits (zfill f.num_bits (natBinDigits d)))
      = Except.ok d
  rw [BitField.denormalize, if_neg (not_not_intro hblen),
    if_neg (by omega : ¬ f.num_bits = 0),
    pairsToBits_bitsOfDigits _ hzd, zfill_val, natBinDigits_val]

/-- Witness for the C2 amendment, at the spec's own example
`num_bits = 4`, `d = 5`: the encoding is the one-hot pair sequence
`[1,0, 0,1, 1,0, 0,1]` and it decodes back to `5`. -/
theorem BitField_round_trip_witness :
    (1 : Nat) ≤ 4 ∧ (5 : Nat) < 2 ^ 4
    ∧ BitField.normalize ⟨"f", 4⟩ 5 = [1, 0, 0, 1, 1, 0, 0, 1]
    ∧ BitField.denormalize ⟨"f", 4⟩ (BitField.normalize ⟨"f", 4⟩ 5)
        = Except.ok 5 :=
  ⟨by decide, by decide, by decide,
    BitField_round_trip ⟨"f", 4⟩ 5 (by decide) (by decide)⟩

/-- C3 counterexample: the call `BitField(num_bits=3).normalize(8)` does not raise
anything — it returns the well-defined (but 8-wide, not 6-wide) encoding of
the four binary digits of `8`. -/
theorem BitField_normalize_overflow_cex :
    BitField.normalize ⟨"f", 3⟩ 8 = [0, 1, 1, 0, 1, 0, 1, 0] := by decide

/-- C3 amended: the method `BitField.normalize` performs no range check.  For every
`decimal_x ≥ 2 ^ num_bits` it silently returns an output strictly longer
than the declared `2 * num_bits` width instead of raising a `RangeError`. -/
theorem BitField_normalize_overflow (f : BitField) (d : Nat)
    (h : 2 ^ f.num_bits ≤ d) :
    2 * f.num_bits < (f.normalize d).length := by
  have hge : f.num_bits + 1 ≤ (natBinDigits d).length :=
    natBinDigits_len_ge d f.num_bits h
  have hdig : ∀ b ∈ natBinDigits d, b < 2 := natBinDigits_digits_lt d
  have hz : ∀ b ∈ zfill f.num_bits (natBinDigits d), b < 2 :=
    zfill_digits_lt f.num_bits (natBinDigits d) hdig
  have hzlen : f.num_bits + 1 ≤ (zfill f.num_bits (natBinDigits d)).length := by
    simp only [zfill, List.length_append, List.length_replicate]
    omega
  show 2 * f.num_bits < (bitsOfDigits (zfill f.num_bits (natBinDigits d))).length
  rw [bitsOfDigits_length _ hz]
  omega

/-- Witness for the C3 amendment at `num_bits = 3`, `decimal_x = 8`. -/
theorem BitField_normalize_overflow_witness :
    (2 : Nat) ^ 3 ≤ 8 ∧ 2 * 3 < (BitField.normalize ⟨"f", 3⟩ 8).length :=
  ⟨by decide, BitField_normalize_overflow ⟨"f", 3⟩ 8 (by decide)⟩

/-- C10 counterexample: with `num_bits = 0` the in-range input `0` yields
`[1.0, 0.0]`, of length `2`, not the declared `2 * num_bits = 0`. -/
theorem BitField_normalize_wellformed_cex :
    (0 : Nat) < 2 ^ (0 : Nat)
    ∧ (BitField.normalize ⟨"f", 0⟩ 0).length ≠ 2 * 0 := by
  constructor
  · decide
  · decide

/-- C10 amended: for every BitField with `num_bits ≥ 1` and every
`0 ≤ d < 2 ^ num_bits`, `normalize d` is a flat list of exactly
`2 * num_bits` entries whose consecutive pairs (positions `2i`, `2i+1`) are
each exactly `[1.0, 0.0]` or `[0.0, 1.0]`; the malformed-digit warning
branch contributes nothing for such inputs. -/
theorem BitField_normalize_wellformed (f : BitField) (d : Nat)
    (hpos : 1 ≤ f.num_bits) (hd : d < 2 ^ f.num_bits) :
    (f.normalize d).length = 2 * f.num_bits
    ∧ ∀ i : Nat, i < f.num_bits →
        ((f.normalize d).drop (2 * i)).take 2 = [(1 : ℚ), 0]
        ∨ ((f.normalize d).drop (2 * i)).take 2 = [(0 : ℚ), 1] := by
  have hdig : ∀ b ∈ natBinDigits d, b < 2 := natBinDigits_digits_lt d
  have hlen : (natBinDigits d).length ≤ f.num_bits :=
    natBinDigits_len_le d f.num_bits hpos hd
  have hzd : ∀ b ∈ zfill f.num_bits (natBinDigits d), b < 2 :=
    zfill_digits_lt f.num_bits (natBinDigits d) hdig
  have hzl : (zfill f.num_bits (natBinDigits d)).length = f.num_bits :=
    zfill_length f.num_bits (natBinDigits d) hlen
  constructor
  · show (bitsOfDigits (zfill f.num_bits (natBinDigits d))).length = 2 * f.num_bits
    rw [bitsOfDigits_length _ hzd, hzl]
  · intro i hi
    show ((bitsOfDigits (zfill f.num_bits (natBinDigits d))).drop (2 * i)).take 2
        = [(1 : ℚ), 0]
      ∨ ((bitsOfDigits (zfill f.num_bits (natBinDigits d))).drop (2 * i)).take 2
        = [(0 : ℚ), 1]
    rw [bitsOfDigits_drop _ hzd i]
    have hi' : i < (zfill f.num_bits (natBinDigits d)).length := by omega
    rw [List.drop_eq_getElem_cons hi']
    have hb : (zfill f.num_bits (natBinDigits d))[i] < 2 :=
      hzd _ (List.getElem_mem hi')
    have hb2 : (zfill f.num_bits (natBinDigits d))[i] = 0
        ∨ (zfill f.num_bits (natBinDigits d))[i] = 1 := by omega
    rcases hb2 with h0 | h1
    · left
      rw [h0]
      simp [bitsOfDigits]
    · right
      rw [h1]
      simp [bitsOfDigits]

/-- Witness for the C10 amendment at `num_bits = 4`, `d = 5`. -/
theorem BitField_normalize_wellformed_witness :
    (BitField.normalize ⟨"f", 4⟩ 5).length = 2 * 4
    ∧ (((BitField.normalize ⟨"f", 4⟩ 5).drop 2).take 2 = [(1 : ℚ), 0]
       ∨ ((BitField.normalize ⟨"f", 4⟩ 5).drop 2).take 2 = [(0 : ℚ), 1]) := by
  have h := BitField_normalize_wellformed ⟨"f", 4⟩ 5 (by decide) (by decide)
  exact ⟨h.1, by simpa using h.2 1 (by decide)⟩

/-- C8: the method `BitField.getOutputType` (describe) returns, for every `num_bits ≥ 0`, an
ordered list of exactly `num_bits` descriptors, each discrete of width 2
with no normalization attribute. -/
theorem BitField_getOutputType_spec (f : BitField) :
    f.getOutputType
      = List.replicate f.num_bits
          { type_ := OutputType.DISCRETE, dim := 2, normalization := none }
    ∧ f.getOutputType.length = f.num_bits := by
  constructor
  · simp [BitField.getOutputType, List.map_const']
  · simp [BitField.getOutputType]

/-- C5: unknown-category policy.  A value not in the vocabulary encodes to
the all-zero row of length `len(choices)`, without failing. -/
theorem DiscreteField_normalize_unknown (f : DiscreteField) (x : String)
    (h : x ∉ f.choices) :
    f.normalize x = List.replicate f.choices.length 0 := by
  obtain ⟨nm, l⟩ := f
  simp only [DiscreteField.normalize] at *
  induction l with
  | nil => rfl
  | cons c t ih =>
    have hc : ¬ (c = x) := fun hh => h (by simp [hh])
    have ht : x ∉ t := fun hx => h (List.mem_cons_of_mem c hx)
    simp only [List.map, if_neg hc, List.length_cons, List.replicate]
    exact congrArg (List.cons 0) (ih ht)

/-- Witness for C5 at vocabulary `["a","b","c"]` and input `"z"`. -/
theorem DiscreteField_normalize_unknown_witness :
    "z" ∉ ["a", "b", "c"]
    ∧ DiscreteField.normalize ⟨"f", ["a", "b", "c"]⟩ "z" = [0, 0, 0] :=
  ⟨by decide,
    DiscreteField_normalize_unknown ⟨"f", ["a", "b", "c"]⟩ "z" (by decide)⟩

lemma maxElem_mem : ∀ l : List ℚ, l ≠ [] → maxElem l ∈ l := by
  intro l
  induction l with
  | nil => intro h; exact absurd rfl h
  | cons a t ih =>
    intro _
    cases t with
    | nil => simp [maxElem]
    | cons b u =>
      rw [show maxElem (a :: b :: u) = max a (maxElem (b :: u)) from rfl]
      rcases max_choice a (maxElem (b :: u)) with h | h
      · rw [h]; exact List.mem_cons_self _ _
      · rw [h]; exact List.mem_cons_of_mem _ (ih (by simp))

lemma le_maxElem : ∀ l : List ℚ, ∀ a : ℚ, a ∈ l → a ≤ maxElem l := by
  intro l
  induction l with
  | nil => intro a ha; simp at ha
  | cons x t ih =>
    intro a ha
    cases t with
    | nil =>
      rw [List.mem_singleton.mp ha]
      exact le_of_eq rfl
    | cons b u =>
      rw [show maxElem (x :: b :: u) = max x (maxElem (b :: u)) from rfl]
      rcases List.mem_cons.mp ha with h | h
      · rw [h]; exact le_max_left _ _
      · exact le_trans (ih a h) (le_max_right _ _)

lemma argmaxIdx_lt_length : ∀ l : List ℚ, l ≠ [] → argmaxIdx l < l.length := by
  intro l
  induction l with
  | nil => intro h; exact absurd rfl h
  | cons x t ih =>
    intro _
    cases t with
    | nil => simp [argmaxIdx]
    | cons b u =>
      rw [show argmaxIdx (x :: b :: u)
          = if x < maxElem (b :: u) then argmaxIdx (b :: u) + 1 else 0 from rfl]
      split
      · have := ih (by simp)
        simp only [List.length_cons] at *
        omega
      · simp

lemma getD_argmaxIdx : ∀ l : List ℚ, l ≠ [] →
    l.getD (argmaxIdx l) 0 = maxElem l := by
  intro l
  induction l with
  | nil => intro h; exact absurd rfl h
  | cons x t ih =>
    intro _
    cases t with
    | nil => rfl
    | cons b u =>
      rw [show argmaxIdx (x :: b :: u)
          = if x < maxElem (b :: u) then argmaxIdx (b :: u) + 1 else 0 from rfl,
        show maxElem (x :: b :: u) = max x (maxElem (b :: u)) from rfl]
      split
      · rename_i hx
        rw [List.getD_cons_succ, ih (by simp), max_eq_right (le_of_lt hx)]
      · rename_i hx
        rw [List.getD_cons_zero, max_eq_left (not_lt.mp hx)]

lemma getD_lt_maxElem_of_lt_argmaxIdx : ∀ l : List ℚ, ∀ j : Nat,
    j < argmaxIdx l → l.getD j 0 < maxElem l := by
  intro l
  induction l with
  | nil => intro j hj; simp [argmaxIdx] at hj
  | cons x t ih =>
    intro j hj
    cases t with
    | nil => simp [argmaxIdx] at hj
    | cons b u =>
      rw [show argmaxIdx (x :: b :: u)
          = if x < maxElem (b :: u) then argmaxIdx (b :: u) + 1 else 0 from rfl] at hj
      rw [show maxElem (x :: b :: u) = max x (maxElem (b :: u)) from rfl]
      split at hj
      · rename_i hx
        rw [max_eq_right (le_of_lt hx)]
        cases j with
        | zero => rw [List.getD_cons_zero]; exact hx
        | succ j' => rw [List.getD_cons_succ]; exact ih j' (by omega)
      · omega

lemma getD_mem_of_lt (l : List ℚ) : ∀ j : Nat, j < l.length →
    l.getD j 0 ∈ l := by
  induction l with
  | nil => intro j hj; simp at hj
  | cons a t ih =>
    intro j hj
    cases j with
    | zero => rw [List.getD_cons_zero]; exact List.mem_cons_self _ _
    | succ j' =>
      rw [List.getD_cons_succ]
      exact List.mem_cons_of_mem _ (ih j' (by simpa using hj))

/-- C9: the method `DiscreteField.denormalize` on a non-empty row of width
`len(choices)` returns the vocabulary entry at the arg-max column index —
the position of the row's maximum, ties broken by the lowest index — and in
particular it always returns some vocabulary entry: an all-zero row decodes
to the first entry. -/
theorem DiscreteField_denormalize_argmax (f : DiscreteField) (row : List ℚ)
    (hne : row ≠ []) (hlen : row.length = f.choices.length) :
    f.denormalize row = f.choices.get? (argmaxIdx row)
    ∧ (f.choices.get? (argmaxIdx row)).isSome = true
    ∧ (∀ j : Nat, j < row.length → row.getD j 0 ≤ row.getD (argmaxIdx row) 0)
    ∧ (∀ j : Nat, j < argmaxIdx row → row.getD j 0 < row.getD (argmaxIdx row) 0)
    ∧ ((∀ v ∈ row, v = 0) → f.denormalize row = f.choices.head?) := by
  have hidx : argmaxIdx row < row.length := argmaxIdx_lt_length row hne
  have hdef : f.denormalize row = f.choices.get? (argmaxIdx row) := by
    cases row with
    | nil => exact absurd rfl hne
    | cons a t => rfl
  have hmax : row.getD (argmaxIdx row) 0 = maxElem row := getD_argmaxIdx row hne
  refine ⟨hdef, ?_, ?_, ?_, ?_⟩
  · rw [List.get?_eq_get (by omega : argmaxIdx row < f.choices.length)]
    rfl
  · intro j hj
    rw [hmax]
    exact le_maxElem row _ (getD_mem_of_lt row j hj)
  · intro j hj
    rw [hmax]
    exact getD_lt_maxElem_of_lt_argmaxIdx row j hj
  · intro hzero
    have hM : maxElem row = 0 := hzero _ (maxElem_mem row hne)
    have h0 : argmaxIdx row = 0 := by
      by_contra hpos
      have hlt : row.getD 0 0 < maxElem row :=
        getD_lt_maxElem_of_lt_argmaxIdx row 0 (by omega)
      have h0m : row.getD 0 0 = 0 :=
        hzero _ (getD_mem_of_lt row 0 (by omega))
      rw [hM, h0m] at hlt
      exact absurd hlt (lt_irrefl 0)
    rw [hdef, h0]
    cases hc : f.choices with
    | nil =>
      rw [hc] at hlen
      simp at hlen
      exact absurd hlen hne
    | cons c cs => rfl

/-- Witness for C9 at vocabulary `["a","b","c"]` and the all-zero row. -/
theorem DiscreteField_denormalize_argmax_witness :
    DiscreteField.denormalize ⟨"f", ["a", "b", "c"]⟩ [0, 0, 0] = some "a" := by
  have h := DiscreteField_denormalize_argmax ⟨"f", ["a", "b", "c"]⟩ [0, 0, 0]
    (by decide) (by decide)
  simpa using h.2.2.2.2 (by decide)

end NetShare
